import Mathlib

/-!
Shallow embedding of the browser-side scripts of the Explore search-results
page (src/app/static/js/results.js and the unnamed script variants), covering
the transcript-segment data model, the segment-index lookup helpers, the
context rendering and scrolling logic, the text-highlight synchronisation,
the single-playback audio manager, the bounded-concurrency lazy audio load
queue, and the client-side segment cache with its fetch helper.

Times (seconds) are modelled as rationals; the DOM side effects (building
HTML, class toggling, scrolling) are abstracted away, and only the state that
the scripts themselves read back (dataset attributes, cached objects,
counters, the currently-playing element) is kept.
-/

/-- A transcript segment as used by results.js: a start offset in seconds and
its text.  (`segment_index` is the position in the list.) -/
structure Seg where
  start : ℚ
  text : String
deriving DecidableEq

/-- Start time of the segment at position `i`, `segments[i].start`; positions
out of range never occur where this is used and default to 0. -/
def startAt (segments : List Seg) (i : Nat) : ℚ :=
  match segments.get? i with
  | some s => s.start
  | none => 0

/-- JavaScript `Array.prototype.findIndex`: index of the first element
satisfying the predicate, `-1` when none does. -/
def jsFindIndex {α : Type} (p : α → Prop) [DecidablePred p] : List α → Int
  | [] => -1
  | x :: xs =>
      if p x then 0
      else if jsFindIndex p xs = -1 then -1 else jsFindIndex p xs + 1

/-- JavaScript `Math.abs`. -/
def mathAbs (q : ℚ) : ℚ := if q < 0 then -q else q

/-- The literal `0.1`, the segment-lookup tolerance in seconds. -/
def tolerance : ℚ := 1 / 10

/-- results.js `findSegmentIndex(time, segments)`:
`segments.findIndex(seg => Math.abs(seg.start - parseFloat(time)) < 0.1)`. -/
def findSegmentIndex (time : ℚ) (segments : List Seg) : Int :=
  jsFindIndex (fun seg => mathAbs (seg.start - time) < tolerance) segments

/-- The state of a `.result-item` row that the scripts read back:
its `data-source`, `data-start`, `data-currentIndex` attributes, and whether a
context container has been rendered into it. -/
structure ResultItem where
  source : String
  start : ℚ
  currentIndex : Int
  contextShown : Bool
deriving DecidableEq

/-- results.js `addContextToResult(resultItem)`.  The `sourceSegments` map is
passed explicitly; rendering of the context HTML is abstracted into the
`contextShown` flag, and the observable dataset write
`resultItem.dataset.currentIndex = currentIndex` is kept.  The two guard
clauses return the item unchanged: `if (!segments) return;` and
`if (currentIndex === -1) return;`.  (The page's query input, read for
highlighting only, does not affect this state.) -/
def addContextToResult (sourceSegments : String → Option (List Seg))
    (item : ResultItem) : ResultItem :=
  match sourceSegments item.source with
  | none => item
  | some segments =>
      let currentIndex := findSegmentIndex item.start segments
      if currentIndex = -1 then item
      else { item with currentIndex := currentIndex, contextShown := true }

/-- The fixed scroll step of results.js `scrollContext` (`const scrollAmount = 6`). -/
def scrollAmount : Int := 6

/-- The new-index computation of `scrollContext`:
`direction === 'up' ? Math.max(0, currentIndex - scrollAmount)
                    : Math.min(segments.length - 1, currentIndex + scrollAmount)`. -/
def scrollNewIndex (direction : String) (currentIndex : Int) (len : Nat) : Int :=
  if direction = "up" then max 0 (currentIndex - scrollAmount)
  else min ((len : Int) - 1) (currentIndex + scrollAmount)

/-- results.js `scrollContext(resultItem, direction)`: recompute the index,
return unchanged at the boundary, otherwise write `dataset.currentIndex` and
`dataset.start` and re-render via `addContextToResult`. -/
def scrollContext (sourceSegments : String → Option (List Seg))
    (direction : String) (item : ResultItem) : ResultItem :=
  match sourceSegments item.source with
  | none => item
  | some segments =>
      let newIndex := scrollNewIndex direction item.currentIndex segments.length
      if newIndex = item.currentIndex then item
      else
        addContextToResult sourceSegments
          { item with currentIndex := newIndex,
                      start := startAt segments newIndex.toNat }

/-- The state of the `textSync` object that its methods read back:
`currentSegmentIndex`, and whether `activeContextContainer` is non-null. -/
structure TSState where
  currentSegmentIndex : Int
  hasContainer : Bool
deriving DecidableEq

namespace textSync

/-- `textSync.highlightSegment(index)`: guarded by
`if (!this.activeContextContainer) return;`, then (after DOM class updates,
abstracted) `this.currentSegmentIndex = index`. -/
def highlightSegment (s : TSState) (index : Int) : TSState :=
  if s.hasContainer then { s with currentSegmentIndex := index } else s

/-- The index at which the search loop of `textSync.updateHighlight` breaks on
a non-empty list: the first `i` with `!segments[i+1]` or
`currentTime >= segments[i].start && currentTime < segments[i+1].start`. -/
def findHighlightIndex (currentTime : ℚ) : List Seg → Nat
  | [] => 0
  | [_] => 0
  | a :: b :: rest =>
      if a.start ≤ currentTime ∧ currentTime < b.start then 0
      else findHighlightIndex currentTime (b :: rest) + 1

/-- `textSync.updateHighlight(currentTime, segments)`.  A null `segments`, a
missing container, or an empty list (whose loop body never runs) all leave the
state unchanged; otherwise the loop breaks at `findHighlightIndex` and calls
`highlightSegment` only when that index differs from `currentSegmentIndex`. -/
def updateHighlight (s : TSState) (currentTime : ℚ) (segments : List Seg) : TSState :=
  if segments.isEmpty ∨ ¬s.hasContainer then s
  else
    let i := findHighlightIndex currentTime segments
    if (i : Int) = s.currentSegmentIndex then s else highlightSegment s i

end textSync

/-- State of the `audioManager` object over `n` registered audio elements
(identified by their index): which elements are currently playing, and the
`currentlyPlaying` reference. -/
structure AMState where
  playing : List Bool
  current : Option Nat
deriving DecidableEq

/-- Events on registered audio elements.  `play i` is the browser starting
playback of element `i` and then running its `play` listener; `pauseEv i` and
`ended i` are element `i` ceasing to play and running the respective listener;
`stopAll` is `audioManager.stopAll()`. -/
inductive AMEvent
  | play (i : Nat)
  | pauseEv (i : Nat)
  | ended (i : Nat)
  | stopAll
deriving DecidableEq

namespace audioManager

/-- One event step of the results.js `audioManager` listeners.  On `play`,
element `i` is playing and the listener pauses `currentlyPlaying` when it is a
different element, then records `currentlyPlaying = audio`.  The `pause`
listener only stops text sync (it does not clear `currentlyPlaying`); the
`ended` listener clears it when it is this element. -/
def amStep (s : AMState) : AMEvent → AMState
  | .play i =>
      let p := s.playing.set i true
      let p :=
        match s.current with
        | some j => if j = i then p else p.set j false
        | none => p
      { playing := p, current := some i }
  | .pauseEv i => { s with playing := s.playing.set i false }
  | .ended i =>
      { playing := s.playing.set i false,
        current := if s.current = some i then none else s.current }
  | .stopAll =>
      match s.current with
      | some j => { playing := s.playing.set j false, current := none }
      | none => s

/-- Run the audio manager from its initial state (`n` registered elements,
none playing, `currentlyPlaying = null`) over a sequence of events. -/
def runAM (n : Nat) (tr : List AMEvent) : AMState :=
  tr.foldl amStep ⟨List.replicate n false, none⟩

end audioManager

/-- An audio placeholder element as sampled by `audioQueue`: its
`data-source` and `data-start` strings, whether it is inside the viewport when
added, and whether it is still connected to the DOM with class
`audio-placeholder` when dequeued. -/
structure Placeholder where
  source : String
  start : String
  inViewport : Bool
  connected : Bool
deriving DecidableEq

/-- A queue entry as built by `audioQueue.add`. -/
structure QItem where
  source : String
  start : String
  priority : Nat
  connected : Bool
deriving DecidableEq

/-- `audioQueue.concurrentLoads`: maximum number of concurrent audio loads. -/
def concurrentLoads : Nat := 3

/-- The mutable fields of the `audioQueue` object. -/
structure QState where
  queue : List QItem
  processing : Bool
  activeLoads : Nat
deriving DecidableEq

namespace audioQueue

/-- The entry that `audioQueue.add` pushes:
`priority: this.isInViewport(placeholder) ? 1 : 0`. -/
def mkItem (ph : Placeholder) : QItem :=
  { source := ph.source, start := ph.start,
    priority := if ph.inViewport then 1 else 0,
    connected := ph.connected }

/-- Stable insertion modelling one step of the JS stable
`sort((a, b) => b.priority - a.priority)`: an element goes before the first
strictly-lower-priority element, after equal priorities already present. -/
def insertDesc (x : QItem) : List QItem → List QItem
  | [] => [x]
  | y :: ys => if x.priority ≤ y.priority then y :: insertDesc x ys else x :: y :: ys

/-- Stable sort of the queue by descending priority. -/
def sortDesc : List QItem → List QItem
  | [] => []
  | x :: xs => insertDesc x (sortDesc xs)

/-- The `while (this.activeLoads < this.concurrentLoads && this.queue.length > 0)`
loop of `processQueue`: each iteration shifts an item and increments
`activeLoads`; a dead placeholder immediately decrements it again (its
deferred `processQueue` call is a separate event), a live one starts a load
that stays in flight. -/
def procLoop : List QItem → Nat → List QItem × Nat
  | [], a => ([], a)
  | x :: rest, a =>
      if a < concurrentLoads then
        if x.connected then procLoop rest (a + 1) else procLoop rest a
      else (x :: rest, a)

/-- `audioQueue.processQueue()`: with an empty queue clear `processing` and
return, otherwise set `processing` and run the dispatch loop. -/
def processQueue (s : QState) : QState :=
  if s.queue.isEmpty then { s with processing := false }
  else
    let p := procLoop s.queue s.activeLoads
    { queue := p.1, processing := true, activeLoads := p.2 }

/-- `audioQueue.add(placeholder)`: skip duplicates (same source and start),
push the new entry, re-sort by descending priority, and kick off
`processQueue` when not already processing. -/
def add (s : QState) (ph : Placeholder) : QState :=
  if s.queue.any (fun item => item.source == ph.source && item.start == ph.start) then s
  else
    let s' : QState := { s with queue := sortDesc (s.queue ++ [mkItem ph]) }
    if s.processing then s' else processQueue s'

/-- The `loadedmetadata` / `error` listener attached to every load started by
`processQueue`: decrement `activeLoads` and re-run `processQueue`.  Such an
event only fires for a load actually in flight, hence the guard. -/
def loadComplete (s : QState) : QState :=
  if s.activeLoads = 0 then s
  else processQueue { s with activeLoads := s.activeLoads - 1 }

/-- `audioQueue.reset()`. -/
def reset (_s : QState) : QState := ⟨[], false, 0⟩

end audioQueue

/-- The events driving the audio queue: an `add` call, a deferred
`processQueue` invocation (from the `setTimeout` in the dead-placeholder
branch), the completion (success or error) of an in-flight load, and `reset`. -/
inductive QEvent
  | add (ph : Placeholder)
  | proc
  | complete
  | reset

/-- One audio-queue event step. -/
def qStep (s : QState) : QEvent → QState
  | .add ph => audioQueue.add s ph
  | .proc => audioQueue.processQueue s
  | .complete => audioQueue.loadComplete s
  | .reset => audioQueue.reset s

/-- The initial `audioQueue` state. -/
def initQ : QState := ⟨[], false, 0⟩

/-- Run the audio queue from its initial state over a sequence of events. -/
def runQ (tr : List QEvent) : QState := tr.foldl qStep initQ

/-- First-match lookup in the segment cache, modelling `segmentCache[k]` where
an overwrite is represented by shadowing (prepending).  Keys are
`(episode_idx, seg_idx)` pairs, modelling the string key `` `${epi}|${idx}` ``. -/
def cacheLookup : List ((Nat × Nat) × Seg) → Nat × Nat → Option Seg
  | [], _ => none
  | (k, v) :: rest, key => if k = key then some v else cacheLookup rest key

/-- Remove the first occurrence of a key from the pending-request list. -/
def removeFirst : List (Nat × Nat) → Nat × Nat → List (Nat × Nat)
  | [], _ => []
  | x :: xs, k => if x = k then xs else x :: removeFirst xs k

/-- State of the part_003 segment-fetch helper: the `segmentCache` object, the
requests issued but not yet resolved, and a log of every network request
issued.  Segment JSON responses are objects, hence truthy, so the
`if (segmentCache[k])` test is cache membership. -/
structure FetchState where
  segmentCache : List ((Nat × Nat) × Seg)
  pending : List (Nat × Nat)
  requests : List (Nat × Nat)
deriving DecidableEq

/-- part_003 `fetchSegmentByIdx(epi, idx)`: return the cached segment when
present; otherwise issue a network request for the key (recorded in
`requests`/`pending`; the value arrives with a later `resolve` event). -/
def fetchSegmentByIdx (s : FetchState) (epi idx : Nat) : FetchState × Option Seg :=
  let k := (epi, idx)
  match cacheLookup s.segmentCache k with
  | some v => (s, some v)
  | none =>
      ({ s with pending := s.pending ++ [k], requests := s.requests ++ [k] }, none)

/-- Resolution of an in-flight request: the continuation
`.then(j => (segmentCache[k] = j))` stores (or overwrites) the cache entry. -/
def resolveFetch (s : FetchState) (k : Nat × Nat) (v : Seg) : FetchState :=
  if k ∈ s.pending then
    { s with segmentCache := (k, v) :: s.segmentCache,
             pending := removeFirst s.pending k }
  else s

/-- Events of the segment-fetch system: a call to `fetchSegmentByIdx`, or the
resolution of one in-flight request with the server's segment. -/
inductive FEvent
  | call (epi idx : Nat)
  | resolve (k : Nat × Nat) (v : Seg)
deriving DecidableEq

/-- One fetch-system event step. -/
def fStep (s : FetchState) : FEvent → FetchState
  | .call epi idx => (fetchSegmentByIdx s epi idx).1
  | .resolve k v => resolveFetch s k v

/-- The initial fetch-system state (`const segmentCache = {}`). -/
def initF : FetchState := ⟨[], [], []⟩

/-- Run the fetch system from its initial state over a sequence of events. -/
def runF (tr : List FEvent) : FetchState := tr.foldl fStep initF

/-! ## General lemmas about the helpers -/

@[simp] theorem startAt_cons_zero (a : Seg) (l : List Seg) : startAt (a :: l) 0 = a.start := rfl

@[simp] theorem startAt_cons_succ (a : Seg) (l : List Seg) (i : Nat) :
    startAt (a :: l) (i + 1) = startAt l i := rfl

theorem startAt_eq_get (segs : List Seg) (m : Nat) (h : m < segs.length) :
    startAt segs m = (segs.get ⟨m, h⟩).start := by
  unfold startAt
  rw [List.get?_eq_get h]

/-- The JavaScript `Math.abs` model agrees with the mathematical absolute value. -/
theorem mathAbs_eq_abs (q : ℚ) : mathAbs q = |q| := by
  unfold mathAbs
  split
  · exact (abs_of_neg (by assumption)).symm
  · exact (abs_of_nonneg (le_of_not_lt (by assumption))).symm

theorem jsFindIndex_cons_pos {α : Type} (p : α → Prop) [DecidablePred p] (x : α) (xs : List α)
    (h : p x) : jsFindIndex p (x :: xs) = 0 := by
  simp [jsFindIndex, h]

theorem jsFindIndex_cons_neg {α : Type} (p : α → Prop) [DecidablePred p] (x : α) (xs : List α)
    (h : ¬p x) :
    jsFindIndex p (x :: xs) =
      if jsFindIndex p xs = -1 then -1 else jsFindIndex p xs + 1 := by
  simp [jsFindIndex, h]

theorem jsFindIndex_ge_neg_one {α : Type} (p : α → Prop) [DecidablePred p] (l : List α) :
    -1 ≤ jsFindIndex p l := by
  induction l with
  | nil => simp [jsFindIndex]
  | cons x xs ih =>
    by_cases h : p x
    · rw [jsFindIndex_cons_pos p x xs h]; omega
    · rw [jsFindIndex_cons_neg p x xs h]
      split
      · omega
      · omega

/-- `findIndex` returns `-1` exactly when no element satisfies the predicate. -/
theorem jsFindIndex_eq_neg_one_iff {α : Type} (p : α → Prop) [DecidablePred p] (l : List α) :
    jsFindIndex p l = -1 ↔ ∀ x ∈ l, ¬p x := by
  induction l with
  | nil => simp [jsFindIndex]
  | cons x xs ih =>
    by_cases h : p x
    · rw [jsFindIndex_cons_pos p x xs h]
      constructor
      · intro h0; omega
      · intro hall; exact absurd h (hall x (List.mem_cons_self x xs))
    · rw [jsFindIndex_cons_neg p x xs h]
      constructor
      · intro heq
        have hxs : jsFindIndex p xs = -1 := by
          by_contra hne
          rw [if_neg hne] at heq
          have := jsFindIndex_ge_neg_one p xs
          omega
        intro y hy
        rcases List.mem_cons.mp hy with rfl | hy'
        · exact h
        · exact (ih.mp hxs) y hy'
      · intro hall
        have hxs : jsFindIndex p xs = -1 :=
          ih.mpr (fun y hy => hall y (List.mem_cons_of_mem x hy))
        rw [if_pos hxs]

/-- When `findIndex` returns a non-negative index, that index holds the first
element satisfying the predicate. -/
theorem jsFindIndex_spec {α : Type} (p : α → Prop) [DecidablePred p] (l : List α) (i : Nat)
    (h : jsFindIndex p l = (i : Int)) :
    (∃ x, l.get? i = some x ∧ p x) ∧ ∀ j x, j < i → l.get? j = some x → ¬p x := by
  induction l generalizing i with
  | nil =>
    exfalso
    simp only [jsFindIndex] at h
    omega
  | cons x xs ih =>
    by_cases hp : p x
    · rw [jsFindIndex_cons_pos p x xs hp] at h
      obtain rfl : i = 0 := by omega
      refine ⟨⟨x, rfl, hp⟩, ?_⟩
      intro j y hj
      omega
    · rw [jsFindIndex_cons_neg p x xs hp] at h
      by_cases h2 : jsFindIndex p xs = -1
      · rw [if_pos h2] at h
        exfalso
        omega
      · rw [if_neg h2] at h
        have hge := jsFindIndex_ge_neg_one p xs
        obtain ⟨i', hi', rfl⟩ : ∃ i' : Nat, jsFindIndex p xs = (i' : Int) ∧ i = i' + 1 := by
          refine ⟨(jsFindIndex p xs).toNat, ?_, ?_⟩ <;> omega
        obtain ⟨⟨y, hy, hpy⟩, hfirst⟩ := ih i' hi'
        refine ⟨⟨y, hy, hpy⟩, ?_⟩
        intro j z hj hz
        cases j with
        | zero =>
          simp only [List.get?] at hz
          cases hz
          exact hp
        | succ j' =>
          exact hfirst j' z (by omega) hz

/-! ## Claim C9: tolerance-based segment lookup -/

/-- Claim C9: `findSegmentIndex` is tolerance-based, not exact: it returns the
index of the first segment whose start time differs from the given time by
strictly less than `0.1` seconds, and `-1` when no segment lies within that
tolerance. -/
theorem findSegmentIndex_first_within_tolerance (t : ℚ) (segs : List Seg) :
    (findSegmentIndex t segs = -1 ↔ ∀ s ∈ segs, ¬mathAbs (s.start - t) < tolerance) ∧
    ∀ i : Nat, findSegmentIndex t segs = (i : Int) →
      i < segs.length ∧ mathAbs (startAt segs i - t) < tolerance ∧
      ∀ j, j < i → ¬mathAbs (startAt segs j - t) < tolerance := by
  constructor
  · exact jsFindIndex_eq_neg_one_iff _ segs
  · intro i hi
    obtain ⟨⟨x, hx, hpx⟩, hfirst⟩ := jsFindIndex_spec _ segs i hi
    have hlen : i < segs.length := by
      by_contra hge
      rw [List.get?_eq_none.mpr (by omega)] at hx
      cases hx
    refine ⟨hlen, ?_, ?_⟩
    · unfold startAt
      rw [hx]
      exact hpx
    · intro j hj
      have hjlen : j < segs.length := by omega
      have := hfirst j (segs.get ⟨j, hjlen⟩) hj (List.get?_eq_get hjlen)
      rw [startAt_eq_get segs j hjlen]
      exact this

/-- Witness for C9 at a concrete input: on a single segment starting at `0`
and lookup time `0`, the returned index `0` is in range, within tolerance, and
first. -/
theorem findSegmentIndex_first_within_tolerance_witness :
    (0 : Nat) < ([⟨0, "a"⟩] : List Seg).length ∧
    mathAbs (startAt [⟨0, "a"⟩] 0 - 0) < tolerance ∧
    ∀ j, j < 0 → ¬mathAbs (startAt ([⟨0, "a"⟩] : List Seg) j - 0) < tolerance :=
  (findSegmentIndex_first_within_tolerance 0 [⟨0, "a"⟩]).2 0 (by with_unfolding_all decide)

/-! ## Claim C8: missing data short-circuits addContextToResult -/

/-- Claim C8: when the segments for a result item's source are not loaded, or
no segment index matches its start time (`findSegmentIndex` returns `-1`),
`addContextToResult` returns with the result item unchanged (and, being a
total function, raises no error). -/
theorem addContextToResult_short_circuit (ss : String → Option (List Seg)) (item : ResultItem)
    (h : ss item.source = none ∨
      ∃ segs, ss item.source = some segs ∧ findSegmentIndex item.start segs = -1) :
    addContextToResult ss item = item := by
  unfold addContextToResult
  rcases h with h | ⟨segs, hs, hidx⟩
  · rw [h]
  · rw [hs]
    simp [hidx]

/-- Witness for C8 at a concrete input: with no segments loaded the item is
returned unchanged. -/
theorem addContextToResult_short_circuit_witness :
    addContextToResult (fun _ => none) ⟨"s", 0, -1, false⟩ = ⟨"s", 0, -1, false⟩ :=
  addContextToResult_short_circuit (fun _ => none) ⟨"s", 0, -1, false⟩ (Or.inl rfl)

/-! ## Claim C10: clamped context scrolling -/

/-- Claim C10: for a result item whose segments are loaded and whose stored
index is in range, `scrollContext` computes the new index as the current index
moved by the fixed scroll amount and clamped into `[0, segments.length - 1]`,
and when the clamped new index equals the current index it returns with the
result item (stored index and start time included) entirely unchanged. -/
theorem scrollContext_clamped_noop (ss : String → Option (List Seg)) (direction : String)
    (item : ResultItem) (segs : List Seg)
    (hs : ss item.source = some segs)
    (h0 : 0 ≤ item.currentIndex) (h1 : item.currentIndex ≤ (segs.length : Int) - 1) :
    scrollNewIndex direction item.currentIndex segs.length =
      max 0 (min ((segs.length : Int) - 1)
        (item.currentIndex + (if direction = "up" then -scrollAmount else scrollAmount))) ∧
    (scrollNewIndex direction item.currentIndex segs.length = item.currentIndex →
      scrollContext ss direction item = item) := by
  constructor
  · unfold scrollNewIndex scrollAmount
    by_cases hd : direction = "up"
    · simp only [if_pos hd]
      omega
    · simp only [if_neg hd]
      omega
  · intro hni
    unfold scrollContext
    rw [hs]
    simp [hni]

/-- Witness for C10 at a concrete input: a single-segment list with the index
at the boundary, where scrolling up is a no-op. -/
theorem scrollContext_clamped_noop_witness :
    scrollContext (fun _ => some [⟨0, "x"⟩]) "up" ⟨"s", 0, 0, false⟩ = ⟨"s", 0, 0, false⟩ :=
  (scrollContext_clamped_noop (fun _ => some [⟨0, "x"⟩]) "up" ⟨"s", 0, 0, false⟩ [⟨0, "x"⟩]
    rfl (by decide) (by decide)).2 (by with_unfolding_all decide)

/-! ## Claim C4: playback-position highlighting -/

theorem findHighlightIndex_lt_length (t : ℚ) (segs : List Seg) (h : segs ≠ []) :
    textSync.findHighlightIndex t segs < segs.length := by
  induction segs with
  | nil => exact absurd rfl h
  | cons a l ih =>
    cases l with
    | nil => simp [textSync.findHighlightIndex]
    | cons b r =>
      by_cases hc : a.start ≤ t ∧ t < b.start
      · simp [textSync.findHighlightIndex, hc]
      · have hlt := ih (by simp)
        simp only [textSync.findHighlightIndex, if_neg hc, List.length_cons]
        exact Nat.add_lt_add_right hlt 1

theorem findHighlightIndex_in_range (t : ℚ) (segs : List Seg)
    (hhead : startAt segs 0 ≤ t) (hne : segs ≠ []) :
    startAt segs (textSync.findHighlightIndex t segs) ≤ t ∧
    (textSync.findHighlightIndex t segs + 1 < segs.length →
      t < startAt segs (textSync.findHighlightIndex t segs + 1)) := by
  induction segs with
  | nil => exact absurd rfl hne
  | cons a l ih =>
    cases l with
    | nil =>
      refine ⟨hhead, ?_⟩
      intro hlt
      simp [textSync.findHighlightIndex] at hlt
    | cons b r =>
      by_cases hc : a.start ≤ t ∧ t < b.start
      · simp only [textSync.findHighlightIndex, if_pos hc]
        exact ⟨hc.1, fun _ => hc.2⟩
      · have hbt : b.start ≤ t := by
          rcases not_and_or.mp hc with h1 | h2
          · exact absurd hhead h1
          · exact le_of_not_lt h2
        have hrec := ih (by simpa using hbt) (by simp)
        simp only [textSync.findHighlightIndex, if_neg hc, startAt_cons_succ,
          List.length_cons]
        refine ⟨hrec.1, ?_⟩
        intro hlt
        have hlen : (b :: r).length = r.length + 1 := rfl
        exact hrec.2 (by omega)

theorem findHighlightIndex_before_first (t : ℚ) (segs : List Seg)
    (hsort : segs.Pairwise (fun x y => x.start < y.start))
    (hlt : t < startAt segs 0) (hne : segs ≠ []) :
    textSync.findHighlightIndex t segs = segs.length - 1 := by
  induction segs with
  | nil => exact absurd rfl hne
  | cons a l ih =>
    cases l with
    | nil => simp [textSync.findHighlightIndex]
    | cons b r =>
      have hab : a.start < b.start := (List.pairwise_cons.mp hsort).1 b (by simp)
      have hc : ¬(a.start ≤ t ∧ t < b.start) := by
        rw [startAt_cons_zero] at hlt
        intro hc
        exact absurd hc.1 (not_le.mpr hlt)
      have hrec := ih (List.pairwise_cons.mp hsort).2
        (by rw [startAt_cons_zero]; rw [startAt_cons_zero] at hlt; exact lt_trans hlt hab)
        (by simp)
      simp only [textSync.findHighlightIndex, if_neg hc, hrec, List.length_cons]
      omega

theorem startAt_lt_of_sorted (segs : List Seg)
    (hsort : segs.Pairwise (fun x y => x.start < y.start))
    (j k : Nat) (hjk : j < k) (hk : k < segs.length) :
    startAt segs j < startAt segs k := by
  have hj : j < segs.length := lt_trans hjk hk
  rw [startAt_eq_get segs j hj, startAt_eq_get segs k hk]
  exact List.pairwise_iff_get.mp hsort ⟨j, hj⟩ ⟨k, hk⟩ hjk

theorem highlight_range_unique (t : ℚ) (segs : List Seg)
    (hsort : segs.Pairwise (fun x y => x.start < y.start))
    (j k : Nat) (hj : j < segs.length) (hk : k < segs.length)
    (hj1 : startAt segs j ≤ t) (hj2 : j + 1 < segs.length → t < startAt segs (j + 1))
    (hk1 : startAt segs k ≤ t) (hk2 : k + 1 < segs.length → t < startAt segs (k + 1)) :
    j = k := by
  by_contra hne
  rcases Nat.lt_or_ge j k with hlt | hge
  · have h1 : t < startAt segs (j + 1) := hj2 (by omega)
    have h2 : startAt segs (j + 1) ≤ startAt segs k := by
      rcases Nat.lt_or_ge (j + 1) k with h | h
      · exact le_of_lt (startAt_lt_of_sorted segs hsort (j + 1) k h hk)
      · have : j + 1 = k := by omega
        rw [this]
    exact absurd hk1 (not_le.mpr (lt_of_lt_of_le h1 h2))
  · have hklt : k < j := by omega
    have h1 : t < startAt segs (k + 1) := hk2 (by omega)
    have h2 : startAt segs (k + 1) ≤ startAt segs j := by
      rcases Nat.lt_or_ge (k + 1) j with h | h
      · exact le_of_lt (startAt_lt_of_sorted segs hsort (k + 1) j h hj)
      · have : k + 1 = j := by omega
        rw [this]
    exact absurd hj1 (not_le.mpr (lt_of_lt_of_le h1 h2))

/-- Counterexample to claim C4 as stated: with segments starting at `1` and
`2` and playback time `0`, `updateHighlight` highlights index `1` (the last
segment), although neither segment's time range contains `0` — both start
strictly after the playback position. -/
theorem updateHighlight_counterexample :
    (textSync.updateHighlight ⟨-1, true⟩ 0 [⟨1, "a"⟩, ⟨2, "b"⟩]).currentSegmentIndex = 1 ∧
    ¬(startAt [⟨1, "a"⟩, ⟨2, "b"⟩] 1 ≤ 0) ∧
    ¬(startAt [⟨1, "a"⟩, ⟨2, "b"⟩] 0 ≤ 0) := by
  with_unfolding_all decide

/-- Claim C4, amended: for a non-empty segment list sorted by strictly
increasing start time, `updateHighlight` highlights the loop's break index,
which is exactly the unique segment whose time range contains the playback
position whenever the position is at or after the first segment's start; a
position before the first segment's start highlights the last segment instead;
and when the break index is already the highlighted one the state is left
unchanged. -/
theorem updateHighlight_contains_position (t : ℚ) (segs : List Seg) (s : TSState)
    (hne : segs ≠ []) (hsort : segs.Pairwise (fun x y => x.start < y.start))
    (hcont : s.hasContainer = true) :
    textSync.findHighlightIndex t segs < segs.length ∧
    (startAt segs 0 ≤ t →
      startAt segs (textSync.findHighlightIndex t segs) ≤ t ∧
      (textSync.findHighlightIndex t segs + 1 < segs.length →
        t < startAt segs (textSync.findHighlightIndex t segs + 1))) ∧
    (t < startAt segs 0 → textSync.findHighlightIndex t segs = segs.length - 1) ∧
    (∀ j, j < segs.length → startAt segs j ≤ t →
      (j + 1 < segs.length → t < startAt segs (j + 1)) →
      j = textSync.findHighlightIndex t segs) ∧
    ((textSync.findHighlightIndex t segs : Int) = s.currentSegmentIndex →
      textSync.updateHighlight s t segs = s) ∧
    ((textSync.findHighlightIndex t segs : Int) ≠ s.currentSegmentIndex →
      textSync.updateHighlight s t segs =
        { s with currentSegmentIndex := textSync.findHighlightIndex t segs }) := by
  have hlen := findHighlightIndex_lt_length t segs hne
  have hempty : segs.isEmpty = false := by
    cases segs with
    | nil => exact absurd rfl hne
    | cons a l => rfl
  refine ⟨hlen, fun hhead => findHighlightIndex_in_range t segs hhead hne, ?_, ?_, ?_, ?_⟩
  · intro hlt
    exact findHighlightIndex_before_first t segs hsort hlt hne
  · intro j hj hj1 hj2
    rcases le_or_lt (startAt segs 0) t with hhead | hhead
    · have hr := findHighlightIndex_in_range t segs hhead hne
      exact highlight_range_unique t segs hsort j (textSync.findHighlightIndex t segs)
        hj hlen hj1 hj2 hr.1 hr.2
    · exfalso
      rcases Nat.eq_zero_or_pos j with rfl | hpos
      · exact absurd hj1 (not_le.mpr hhead)
      · have : startAt segs 0 < startAt segs j :=
          startAt_lt_of_sorted segs hsort 0 j hpos hj
        exact absurd hj1 (not_le.mpr (lt_trans hhead this))
  · intro heq
    simp [textSync.updateHighlight, hempty, hcont, heq]
  · intro hneq
    simp [textSync.updateHighlight, textSync.highlightSegment, hempty, hcont, hneq]

/-- Witness for the amended C4 at a concrete input: a single segment starting
at `0`, playback time `0`, break index `0` already highlighted — the state is
unchanged. -/
theorem updateHighlight_contains_position_witness :
    textSync.updateHighlight ⟨0, true⟩ 0 [⟨0, "a"⟩] = ⟨0, true⟩ :=
  (updateHighlight_contains_position 0 [⟨0, "a"⟩] ⟨0, true⟩
    (by with_unfolding_all decide) (List.pairwise_singleton _ _) rfl).2.2.2.2.1
    (by with_unfolding_all decide)

/-! ## Claim C2: at most one audio element plays at a time -/

theorem getElem_set_false_ne_true (l : List Bool) (k : Nat) :
    (l.set k false)[k]? ≠ some true := by
  by_cases h : k < l.length
  · rw [List.getElem?_set_self (by simpa using h)]
    simp
  · rw [List.getElem?_eq_none (by rw [List.length_set]; omega)]
    simp

/-- The audio-manager invariant is preserved by every event: any element
recorded as playing is the one referenced by `currentlyPlaying`. -/
theorem amStep_playing_inv (s : AMState) (e : AMEvent)
    (h : ∀ j, s.playing[j]? = some true → s.current = some j) :
    ∀ j, (audioManager.amStep s e).playing[j]? = some true →
      (audioManager.amStep s e).current = some j := by
  cases e with
  | play i =>
    intro j hj
    show some i = some j
    by_cases hji : j = i
    · rw [hji]
    · rcases hcur : s.current with _ | c
      · simp only [audioManager.amStep, hcur] at hj
        rw [List.getElem?_set_ne (by omega : i ≠ j)] at hj
        have hc := h j hj
        rw [hcur] at hc
        cases hc
      · simp only [audioManager.amStep, hcur] at hj
        by_cases hci : c = i
        · rw [if_pos hci] at hj
          rw [List.getElem?_set_ne (by omega : i ≠ j)] at hj
          have hc := h j hj
          rw [hcur] at hc
          injection hc with hcj
          exact absurd (hci ▸ hcj).symm hji
        · rw [if_neg hci] at hj
          by_cases hjc : j = c
          · rw [hjc] at hj
            exact absurd hj (getElem_set_false_ne_true _ c)
          · rw [List.getElem?_set_ne (by omega : c ≠ j),
              List.getElem?_set_ne (by omega : i ≠ j)] at hj
            have hc := h j hj
            rw [hcur] at hc
            injection hc with hcj
            exact absurd hcj.symm hjc
  | pauseEv i =>
    intro j hj
    simp only [audioManager.amStep] at hj ⊢
    by_cases hji : j = i
    · rw [hji] at hj
      exact absurd hj (getElem_set_false_ne_true _ i)
    · rw [List.getElem?_set_ne (by omega : i ≠ j)] at hj
      exact h j hj
  | ended i =>
    intro j hj
    simp only [audioManager.amStep] at hj ⊢
    by_cases hji : j = i
    · rw [hji] at hj
      exact absurd hj (getElem_set_false_ne_true _ i)
    · rw [List.getElem?_set_ne (by omega : i ≠ j)] at hj
      have hc := h j hj
      rw [hc, if_neg (show ¬(some j = some i) by simp [hji])]
  | stopAll =>
    intro j hj
    rcases hcur : s.current with _ | c
    · simp only [audioManager.amStep, hcur] at hj ⊢
      exact hcur ▸ h j hj
    · simp only [audioManager.amStep, hcur] at hj ⊢
      exfalso
      by_cases hjc : j = c
      · rw [hjc] at hj
        exact absurd hj (getElem_set_false_ne_true _ c)
      · rw [List.getElem?_set_ne (by omega : c ≠ j)] at hj
        have hc := h j hj
        rw [hcur] at hc
        injection hc with hcj
        exact absurd hcj.symm hjc

/-- The invariant holds in every reachable audio-manager state. -/
theorem runAM_playing_inv (n : Nat) (tr : List AMEvent) :
    ∀ j, (audioManager.runAM n tr).playing[j]? = some true →
      (audioManager.runAM n tr).current = some j := by
  have main : ∀ (l : List AMEvent) (s : AMState),
      (∀ j, s.playing[j]? = some true → s.current = some j) →
      ∀ j, (l.foldl audioManager.amStep s).playing[j]? = some true →
        (l.foldl audioManager.amStep s).current = some j := by
    intro l
    induction l with
    | nil => intro s h; exact h
    | cons e l ih =>
      intro s h
      exact ih (audioManager.amStep s e) (amStep_playing_inv s e h)
  refine main tr _ ?_
  intro j hj
  exfalso
  by_cases h : j < n
  · rw [List.getElem?_replicate, if_pos h] at hj
    cases hj
  · rw [List.getElem?_eq_none (by rw [List.length_replicate]; omega)] at hj
    cases hj

/-- Claim C2: in every reachable audio-manager state at most one registered
audio element is playing; moreover, when a `play` event fires on an element
while a different element is recorded as `currentlyPlaying`, that previous
element is paused (no longer playing) and the new element is recorded as
`currentlyPlaying`. -/
theorem audioManager_single_playback (n : Nat) (tr : List AMEvent) :
    (∀ i j : Nat, (audioManager.runAM n tr).playing[i]? = some true →
      (audioManager.runAM n tr).playing[j]? = some true → i = j) ∧
    (∀ i k : Nat, (audioManager.runAM n tr).current = some k → k ≠ i →
      (audioManager.amStep (audioManager.runAM n tr) (AMEvent.play i)).playing[k]? ≠
        some true ∧
      (audioManager.amStep (audioManager.runAM n tr) (AMEvent.play i)).current = some i) := by
  have hinv := runAM_playing_inv n tr
  constructor
  · intro i j hi hj
    have h1 := hinv i hi
    have h2 := hinv j hj
    rw [h1] at h2
    injection h2
  · intro i k hc hki
    constructor
    · simp only [audioManager.amStep, hc, if_neg hki]
      exact getElem_set_false_ne_true _ k
    · rfl

/-- Witness for C2 at a concrete input: after `play 0` the single registered
element is playing, and the uniqueness part of the claim applies to it. -/
theorem audioManager_single_playback_witness :
    (audioManager.runAM 1 [AMEvent.play 0]).playing[0]? = some true ∧ (0 : Nat) = 0 :=
  ⟨by with_unfolding_all decide,
    (audioManager_single_playback 1 [AMEvent.play 0]).1 0 0
      (by with_unfolding_all decide) (by with_unfolding_all decide)⟩

/-! ## Claims C1, C5, C6: the lazy audio load queue -/

theorem procLoop_active_le (q : List QItem) (a : Nat) (h : a ≤ concurrentLoads) :
    (audioQueue.procLoop q a).2 ≤ concurrentLoads := by
  induction q generalizing a with
  | nil => simpa [audioQueue.procLoop] using h
  | cons x rest ih =>
    unfold audioQueue.procLoop
    by_cases h1 : a < concurrentLoads
    · rw [if_pos h1]
      by_cases hx : x.connected
      · rw [if_pos hx]
        exact ih (a + 1) (by omega)
      · rw [if_neg hx]
        exact ih a h
    · rw [if_neg h1]
      exact h

theorem processQueue_active_le (s : QState) (h : s.activeLoads ≤ concurrentLoads) :
    (audioQueue.processQueue s).activeLoads ≤ concurrentLoads := by
  unfold audioQueue.processQueue
  by_cases he : s.queue.isEmpty
  · rw [if_pos he]
    exact h
  · rw [if_neg he]
    exact procLoop_active_le s.queue s.activeLoads h

theorem qStep_active_le (s : QState) (e : QEvent) (h : s.activeLoads ≤ concurrentLoads) :
    (qStep s e).activeLoads ≤ concurrentLoads := by
  cases e with
  | add ph =>
    show (audioQueue.add s ph).activeLoads ≤ concurrentLoads
    unfold audioQueue.add
    by_cases hd : s.queue.any fun item => item.source == ph.source && item.start == ph.start
    · rw [if_pos hd]
      exact h
    · rw [if_neg hd]
      by_cases hp : s.processing
      · rw [if_pos hp]
        exact h
      · rw [if_neg hp]
        exact processQueue_active_le _ h
  | proc => exact processQueue_active_le s h
  | complete =>
    show (audioQueue.loadComplete s).activeLoads ≤ concurrentLoads
    unfold audioQueue.loadComplete
    by_cases h0 : s.activeLoads = 0
    · rw [if_pos h0]
      exact h
    · rw [if_neg h0]
      exact processQueue_active_le _ (by simp only []; omega)
  | reset =>
    show (0 : Nat) ≤ concurrentLoads
    omega

/-- Claim C1: the lazy audio load queue is bounded-concurrency capped at 3:
for every sequence of add, processQueue, load-completion and reset events, the
number of in-flight loads `activeLoads` never exceeds `concurrentLoads = 3`. -/
theorem audioQueue_bounded_concurrency (tr : List QEvent) :
    (runQ tr).activeLoads ≤ concurrentLoads := by
  have main : ∀ (l : List QEvent) (s : QState), s.activeLoads ≤ concurrentLoads →
      (l.foldl qStep s).activeLoads ≤ concurrentLoads := by
    intro l
    induction l with
    | nil => intro s h; exact h
    | cons e l ih =>
      intro s h
      exact ih (qStep s e) (qStep_active_le s e h)
  exact main tr initQ (by decide)

theorem mem_insertDesc (x z : QItem) (l : List QItem) (h : z ∈ audioQueue.insertDesc x l) :
    z = x ∨ z ∈ l := by
  induction l with
  | nil =>
    simp only [audioQueue.insertDesc, List.mem_singleton] at h
    exact Or.inl h
  | cons y ys ih =>
    unfold audioQueue.insertDesc at h
    by_cases hp : x.priority ≤ y.priority
    · rw [if_pos hp] at h
      rcases List.mem_cons.mp h with rfl | h'
      · exact Or.inr (List.mem_cons_self _ _)
      · rcases ih h' with h'' | h''
        · exact Or.inl h''
        · exact Or.inr (List.mem_cons_of_mem _ h'')
    · rw [if_neg hp] at h
      rcases List.mem_cons.mp h with rfl | h'
      · exact Or.inl rfl
      · exact Or.inr h'

theorem insertDesc_pairwise (x : QItem) (l : List QItem)
    (h : l.Pairwise (fun a b => b.priority ≤ a.priority)) :
    (audioQueue.insertDesc x l).Pairwise (fun a b => b.priority ≤ a.priority) := by
  induction l with
  | nil => simp [audioQueue.insertDesc]
  | cons y ys ih =>
    obtain ⟨hy, hys⟩ := List.pairwise_cons.mp h
    unfold audioQueue.insertDesc
    by_cases hp : x.priority ≤ y.priority
    · rw [if_pos hp]
      refine List.pairwise_cons.mpr ⟨?_, ih hys⟩
      intro z hz
      rcases mem_insertDesc x z ys hz with rfl | hz'
      · exact hp
      · exact hy z hz'
    · rw [if_neg hp]
      refine List.pairwise_cons.mpr ⟨?_, h⟩
      intro z hz
      rcases List.mem_cons.mp hz with rfl | hz'
      · omega
      · exact le_trans (hy z hz') (by omega)

theorem sortDesc_pairwise (l : List QItem) :
    (audioQueue.sortDesc l).Pairwise (fun a b => b.priority ≤ a.priority) := by
  induction l with
  | nil => simp [audioQueue.sortDesc]
  | cons x xs ih => exact insertDesc_pairwise x (audioQueue.sortDesc xs) ih

theorem procLoop_drop (q : List QItem) (a : Nat) :
    ∃ k, (audioQueue.procLoop q a).1 = q.drop k := by
  induction q generalizing a with
  | nil => exact ⟨0, rfl⟩
  | cons x rest ih =>
    unfold audioQueue.procLoop
    by_cases h1 : a < concurrentLoads
    · rw [if_pos h1]
      by_cases hx : x.connected
      · rw [if_pos hx]
        obtain ⟨k, hk⟩ := ih (a + 1)
        exact ⟨k + 1, hk⟩
      · rw [if_neg hx]
        obtain ⟨k, hk⟩ := ih a
        exact ⟨k + 1, hk⟩
    · rw [if_neg h1]
      exact ⟨0, rfl⟩

theorem processQueue_drop (s : QState) :
    ∃ k, (audioQueue.processQueue s).queue = s.queue.drop k := by
  unfold audioQueue.processQueue
  by_cases he : s.queue.isEmpty
  · rw [if_pos he]
    exact ⟨0, rfl⟩
  · rw [if_neg he]
    exact procLoop_drop s.queue s.activeLoads

theorem qStep_queue_pairwise (s : QState) (e : QEvent)
    (h : s.queue.Pairwise (fun a b => b.priority ≤ a.priority)) :
    (qStep s e).queue.Pairwise (fun a b => b.priority ≤ a.priority) := by
  cases e with
  | add ph =>
    show (audioQueue.add s ph).queue.Pairwise _
    unfold audioQueue.add
    by_cases hd : s.queue.any fun item => item.source == ph.source && item.start == ph.start
    · rw [if_pos hd]
      exact h
    · rw [if_neg hd]
      by_cases hp : s.processing
      · rw [if_pos hp]
        exact sortDesc_pairwise _
      · rw [if_neg hp]
        obtain ⟨k, hk⟩ := processQueue_drop
          { s with queue := audioQueue.sortDesc (s.queue ++ [audioQueue.mkItem ph]) }
        rw [hk]
        exact List.Pairwise.sublist (List.drop_sublist k _) (sortDesc_pairwise _)
  | proc =>
    obtain ⟨k, hk⟩ := processQueue_drop s
    show (audioQueue.processQueue s).queue.Pairwise _
    rw [hk]
    exact List.Pairwise.sublist (List.drop_sublist k _) h
  | complete =>
    show (audioQueue.loadComplete s).queue.Pairwise _
    unfold audioQueue.loadComplete
    by_cases h0 : s.activeLoads = 0
    · rw [if_pos h0]
      exact h
    · rw [if_neg h0]
      obtain ⟨k, hk⟩ := processQueue_drop { s with activeLoads := s.activeLoads - 1 }
      rw [hk]
      exact List.Pairwise.sublist (List.drop_sublist k _) h
  | reset => exact List.Pairwise.nil

/-- Claim C5: `audioQueue.add` assigns priority 1 to a placeholder in the
viewport and 0 otherwise, the pending queue is kept sorted in descending
priority in every reachable state, and `processQueue` dequeues a prefix of
the queue in order — so every pending in-viewport (priority 1) entry is
dequeued before any pending out-of-viewport (priority 0) entry. -/
theorem audioQueue_priority_order (tr : List QEvent) :
    (runQ tr).queue.Pairwise (fun a b => b.priority ≤ a.priority) ∧
    (∃ k, (audioQueue.processQueue (runQ tr)).queue = (runQ tr).queue.drop k) ∧
    (∀ ph : Placeholder, (audioQueue.mkItem ph).priority =
      if ph.inViewport then 1 else 0) := by
  refine ⟨?_, processQueue_drop (runQ tr), fun ph => rfl⟩
  have main : ∀ (l : List QEvent) (s : QState),
      s.queue.Pairwise (fun a b => b.priority ≤ a.priority) →
      (l.foldl qStep s).queue.Pairwise (fun a b => b.priority ≤ a.priority) := by
    intro l
    induction l with
    | nil => intro s h; exact h
    | cons e l ih =>
      intro s h
      exact ih (qStep s e) (qStep_queue_pairwise s e h)
  exact main tr initQ List.Pairwise.nil

theorem procLoop_length_le (q : List QItem) (a : Nat) :
    (audioQueue.procLoop q a).1.length ≤ q.length := by
  induction q generalizing a with
  | nil => simp [audioQueue.procLoop]
  | cons x rest ih =>
    unfold audioQueue.procLoop
    by_cases h1 : a < concurrentLoads
    · rw [if_pos h1]
      by_cases hx : x.connected
      · rw [if_pos hx]
        exact le_trans (ih (a + 1)) (by simp)
      · rw [if_neg hx]
        exact le_trans (ih a) (by simp)
    · rw [if_neg h1]

theorem procLoop_length_lt (q : List QItem) (a : Nat)
    (h1 : a < concurrentLoads) (h2 : q ≠ []) :
    (audioQueue.procLoop q a).1.length < q.length := by
  cases q with
  | nil => exact absurd rfl h2
  | cons x rest =>
    unfold audioQueue.procLoop
    rw [if_pos h1]
    by_cases hx : x.connected
    · rw [if_pos hx]
      exact lt_of_le_of_lt (procLoop_length_le rest (a + 1)) (by simp)
    · rw [if_neg hx]
      exact lt_of_le_of_lt (procLoop_length_le rest a) (by simp)

/-- Claim C6: a load completion (the `loadedmetadata` or `error` listener)
decrements `activeLoads` by one and re-runs `processQueue`; consequently,
whenever a load is in flight, the concurrency bound holds and pending items
remain, completing that load strictly shortens the pending queue — it never
leaves the queue stalled. -/
theorem loadComplete_frees_slot_and_advances (s : QState)
    (h1 : 1 ≤ s.activeLoads) (h2 : s.activeLoads ≤ concurrentLoads)
    (h3 : s.queue ≠ []) :
    audioQueue.loadComplete s =
      audioQueue.processQueue { s with activeLoads := s.activeLoads - 1 } ∧
    (audioQueue.loadComplete s).queue.length < s.queue.length := by
  have hne : ¬s.activeLoads = 0 := by omega
  constructor
  · unfold audioQueue.loadComplete
    rw [if_neg hne]
  · unfold audioQueue.loadComplete
    rw [if_neg hne]
    unfold audioQueue.processQueue
    rw [if_neg (by simpa [List.isEmpty_iff] using h3)]
    exact procLoop_length_lt s.queue (s.activeLoads - 1) (by omega) h3

/-- Witness for C6 at a concrete input: one in-flight load completing over a
one-entry queue dequeues that entry. -/
theorem loadComplete_frees_slot_and_advances_witness :
    (audioQueue.loadComplete ⟨[⟨"s", "0", 0, true⟩], true, 1⟩).queue.length <
      ([⟨"s", "0", 0, true⟩] : List QItem).length :=
  (loadComplete_frees_slot_and_advances ⟨[⟨"s", "0", 0, true⟩], true, 1⟩
    (by decide) (by decide) (by with_unfolding_all decide)).2

/-! ## Claims C3, C7: segment cache and request coalescing -/

/-- Counterexample to claim C3 as stated: two back-to-back uncached calls to
`fetchSegmentByIdx` for the same `(episode, segment-index)` key — as close
together as events can be, hence inside any debounce window — each issue
their own network request: two requests for the key `(0, 0)` are logged, so
neither batching nor in-flight coalescing takes place. -/
theorem fetchSegmentByIdx_no_coalescing_counterexample :
    (runF [FEvent.call 0 0, FEvent.call 0 0]).requests = [(0, 0), (0, 0)] ∧
    ¬((runF [FEvent.call 0 0, FEvent.call 0 0]).requests.count (0, 0) ≤ 1) := by
  with_unfolding_all decide

/-- Claim C3, amended: `fetchSegmentByIdx` performs no batching and no
coalescing of in-flight requests — every call for a key not yet stored in
`segmentCache` immediately issues exactly one network request of its own
(even when a request for the same key is already in flight), while a call for
a cached key issues none; a call never writes the cache (entries are stored
only when a request resolves). -/
theorem fetchSegmentByIdx_requests_each_uncached_call (s : FetchState) (epi idx : Nat) :
    (fetchSegmentByIdx s epi idx).1.requests =
      (if (cacheLookup s.segmentCache (epi, idx)).isSome then s.requests
        else s.requests ++ [(epi, idx)]) ∧
    (fetchSegmentByIdx s epi idx).1.segmentCache = s.segmentCache := by
  unfold fetchSegmentByIdx
  cases h : cacheLookup s.segmentCache (epi, idx) <;> simp [h]

/-- Counterexample to claim C7 as stated: with two duplicate in-flight
requests for the key `(0, 0)`, after the first resolves and stores segment
`⟨0, "a"⟩` a call returns it from the cache; but when the second, still
pending, request later resolves with `⟨0, "b"⟩` it overwrites the entry, and a
subsequent call returns different data — the cached segment is not immutable
once fetched. -/
theorem segmentCache_overwritten_counterexample :
    (fetchSegmentByIdx (runF [FEvent.call 0 0, FEvent.call 0 0,
      FEvent.resolve (0, 0) ⟨0, "a"⟩]) 0 0).2 = some ⟨0, "a"⟩ ∧
    (fetchSegmentByIdx (runF [FEvent.call 0 0, FEvent.call 0 0,
      FEvent.resolve (0, 0) ⟨0, "a"⟩, FEvent.resolve (0, 0) ⟨0, "b"⟩]) 0 0).2 =
      some ⟨0, "b"⟩ ∧
    (⟨0, "a"⟩ : Seg) ≠ ⟨0, "b"⟩ := by
  with_unfolding_all decide

theorem mem_removeFirst (l : List (Nat × Nat)) (k x : Nat × Nat)
    (h : x ∈ removeFirst l k) : x ∈ l := by
  induction l with
  | nil => simp [removeFirst] at h
  | cons y ys ih =>
    unfold removeFirst at h
    by_cases hy : y = k
    · rw [if_pos hy] at h
      exact List.mem_cons_of_mem _ h
    · rw [if_neg hy] at h
      rcases List.mem_cons.mp h with rfl | h'
      · exact List.mem_cons_self _ _
      · exact List.mem_cons_of_mem _ (ih h')

/-- A cached key with no duplicate request in flight stays cached with the
same value and stays out of the pending list across any single event. -/
theorem fStep_cache_stable (s : FetchState) (k : Nat × Nat) (v : Seg) (e : FEvent)
    (hc : cacheLookup s.segmentCache k = some v) (hp : k ∉ s.pending) :
    cacheLookup (fStep s e).segmentCache k = some v ∧ k ∉ (fStep s e).pending := by
  cases e with
  | call epi idx =>
    show cacheLookup (fetchSegmentByIdx s epi idx).1.segmentCache k = some v ∧
      k ∉ (fetchSegmentByIdx s epi idx).1.pending
    cases h : cacheLookup s.segmentCache (epi, idx) with
    | some w =>
      simp only [fetchSegmentByIdx, h]
      exact ⟨hc, hp⟩
    | none =>
      simp only [fetchSegmentByIdx, h]
      refine ⟨hc, ?_⟩
      intro hmem
      rcases List.mem_append.mp hmem with h1 | h1
      · exact hp h1
      · rw [List.mem_singleton] at h1
        rw [h1] at hc
        rw [hc] at h
        cases h
  | resolve k2 w =>
    show cacheLookup (resolveFetch s k2 w).segmentCache k = some v ∧
      k ∉ (resolveFetch s k2 w).pending
    unfold resolveFetch
    by_cases hmem : k2 ∈ s.pending
    · rw [if_pos hmem]
      have hne : ¬k2 = k := fun h => hp (h ▸ hmem)
      constructor
      · show cacheLookup ((k2, w) :: s.segmentCache) k = some v
        unfold cacheLookup
        rw [if_neg hne]
        exact hc
      · intro h
        exact hp (mem_removeFirst s.pending k2 k h)
    · rw [if_neg hmem]
      exact ⟨hc, hp⟩

/-- Claim C7, amended: once `fetchSegmentByIdx` has resolved and stored a
segment under a key, a call for that key returns the cached segment without
issuing another network fetch; and provided no duplicate request for the key
is still in flight, the cached entry never changes across any further
sequence of events — it can only be overwritten by the resolution of a
request for the same key that was already in flight. -/
theorem segmentCache_hit_and_stability (s : FetchState) (k : Nat × Nat) (v : Seg)
    (tr : List FEvent)
    (hc : cacheLookup s.segmentCache k = some v) (hp : k ∉ s.pending) :
    fetchSegmentByIdx s k.1 k.2 = (s, some v) ∧
    cacheLookup (tr.foldl fStep s).segmentCache k = some v := by
  obtain ⟨e, i⟩ := k
  constructor
  · show fetchSegmentByIdx s e i = (s, some v)
    simp only [fetchSegmentByIdx, hc]
  · have main : ∀ (l : List FEvent) (t : FetchState),
        cacheLookup t.segmentCache (e, i) = some v → (e, i) ∉ t.pending →
        cacheLookup (l.foldl fStep t).segmentCache (e, i) = some v := by
      intro l
      induction l with
      | nil => intro t h1 _; exact h1
      | cons ev l ih =>
        intro t h1 h2
        obtain ⟨h1', h2'⟩ := fStep_cache_stable t (e, i) v ev h1 h2
        exact ih (fStep t ev) h1' h2'
    exact main tr s hc hp

/-- Witness for the amended C7 at a concrete input: after one call and its
resolution, the key is cached, nothing is pending, a further call after one
more event still sees the same segment, and a direct call returns it without
touching the state. -/
theorem segmentCache_hit_and_stability_witness :
    fetchSegmentByIdx (runF [FEvent.call 0 0, FEvent.resolve (0, 0) ⟨0, "a"⟩]) 0 0 =
      (runF [FEvent.call 0 0, FEvent.resolve (0, 0) ⟨0, "a"⟩], some ⟨0, "a"⟩) ∧
    cacheLookup (([FEvent.call 1 1].foldl fStep
      (runF [FEvent.call 0 0, FEvent.resolve (0, 0) ⟨0, "a"⟩]))).segmentCache (0, 0) =
      some ⟨0, "a"⟩ :=
  segmentCache_hit_and_stability
    (runF [FEvent.call 0 0, FEvent.resolve (0, 0) ⟨0, "a"⟩]) (0, 0) ⟨0, "a"⟩
    [FEvent.call 1 1]
    (by with_unfolding_all decide) (by with_unfolding_all decide)
